import Mathlib

/- Shallow embedding of the identifier subsystem of the `f` repository
   (crates/f/src/git_status.rs and crates/f/src/f.rs): the FNV-1a based
   fingerprint hasher, the minimal display-prefix assigner `generate_ids`,
   the prefix resolver `find_file_by_id`, and the interactive ephemeral
   key generator `generate_keys` together with the narrowing state machine
   of `interactive::run`.  Paths are modelled as their byte lists
   (`List Nat`), strings of alphabet symbols as `List Char`, and u64
   arithmetic as `Nat` reduced modulo 2 ^ 64. -/

/-- Rust `u64` modulus. -/
def U64 : Nat := 2 ^ 64

/-- FNV-1a offset basis (git_status.rs, `FNV_OFFSET`). -/
def FNV_OFFSET : Nat := 0xcbf29ce484222325

/-- FNV-1a prime (git_status.rs, `FNV_PRIME`). -/
def FNV_PRIME : Nat := 0x100000001b3

/-- Function `fnv1a_hash` from git_status.rs: for each byte, XOR into the hash and
    multiply by the prime with 64-bit wraparound. -/
def fnv1a_hash (s : List Nat) : Nat :=
  s.foldl (fun h b => ((h ^^^ b) * FNV_PRIME) % U64) FNV_OFFSET

/-- The digit-emission loop of `hash_to_id_chars`: `k` iterations of
    `chars.push(id_chars[(hash % base) as usize]); hash /= base`. -/
def hashDigits (idChars : List Char) : Nat → Nat → List Char
  | 0, _ => []
  | k + 1, h => idChars.getD (h % idChars.length) 'a' :: hashDigits idChars k (h / idChars.length)

/-- Function `hash_to_id_chars` from git_status.rs: hash the path with FNV-1a and emit
    exactly 12 alphabet symbols, least-significant digit first. -/
def hash_to_id_chars (s : List Nat) (idChars : List Char) : List Char :=
  hashDigits idChars 12 (fnv1a_hash s)

/-- The collision test of the inner loop of `generate_ids`: some other index
    `j` has a different path, a hash at least `len` long, and the same
    length-`len` hash prefix as entry `i`. -/
def collides (paths : List (List Nat)) (hashes : List (List Char)) (i len : Nat) : Bool :=
  (List.range hashes.length).any fun j =>
    decide (i ≠ j) && decide (paths.getD i [] ≠ paths.getD j []) &&
      decide (len ≤ (hashes.getD j []).length) &&
      decide ((hashes.getD i []).take len = (hashes.getD j []).take len)

/-- The `'outer: while len <= hash.len()` search of `generate_ids`, with the
    loop expressed as structural recursion on a fuel argument.  Any fuel with
    `hlen < fuel + len` makes the fuel case unreachable, so `generate_ids`
    calls it with fuel `hlen + 1`. -/
def searchLenAux (paths : List (List Nat)) (hashes : List (List Char)) (i hlen : Nat) :
    Nat → Nat → Nat
  | 0, len => len
  | fuel + 1, len =>
    if hlen < len then len
    else if collides paths hashes i len then searchLenAux paths hashes i hlen fuel (len + 1)
    else len

/-- Function `generate_ids` from git_status.rs: for each path, its full 12-symbol hash
    together with the shortest hash prefix that no other distinct path shares,
    capped at the full hash (`len.min(hash.len())`). -/
def generate_ids (paths : List (List Nat)) (idChars : List Char) :
    List (List Char × List Char) :=
  let hashes := paths.map fun p => hash_to_id_chars p idChars
  (List.range hashes.length).map fun i =>
    let hash := hashes.getD i []
    let len := searchLenAux paths hashes i hash.length (hash.length + 1) 1
    (hash.take (min len hash.length), hash)

/-- Struct `StableId` from git_status.rs. -/
structure StableId where
  display : List Char
  full_hash : List Char
deriving DecidableEq

/-- Method `StableId::matches`: `self.full_hash.starts_with(input)`. -/
def StableId.matches (s : StableId) (input : List Char) : Bool :=
  List.isPrefixOf input s.full_hash

/-- Enum `FileType` from git_status.rs. -/
inductive FileType where
  | Unstaged
  | Untracked
  | Staged
deriving DecidableEq

/-- Struct `GitFile` from git_status.rs.  `abs_path` is dropped (filesystem detail),
    `diff_stats` is a pair of added/removed counts. -/
structure GitFile where
  mtime : Nat
  rel_path : List Nat
  file_type : FileType
  stable_id : StableId
  diff_stats : Option (Nat × Nat)
deriving DecidableEq

/-- A default `GitFile`, standing in for Rust's panicking out-of-range index. -/
def dfltFile : GitFile :=
  { mtime := 0, rel_path := [], file_type := FileType.Unstaged,
    stable_id := ⟨[], []⟩, diff_stats := none }

/-- Enum `IdMatch` from git_status.rs. -/
inductive IdMatch where
  | Unique (f : GitFile)
  | Ambiguous (n : Nat)
  | NotFound
deriving DecidableEq

/-- Function `find_file_by_id` from git_status.rs: filter by `StableId::matches` and
    classify by the number of matches. -/
def find_file_by_id (files : List GitFile) (id : List Char) : IdMatch :=
  match files.filter fun f => f.stable_id.matches id with
  | [] => IdMatch.NotFound
  | [f] => IdMatch.Unique f
  | ms => IdMatch.Ambiguous ms.length

/-- One input entry for the pure assembly step of `get_all_files`. -/
structure Entry where
  path : List Nat
  ftype : FileType
deriving DecidableEq

/-- The pure assembly loop of `get_all_files` (git_status.rs):
    fingerprints and display ids are generated over the ordered path list and
    zipped back onto the entries.  The IO-derived fields (`mtime`,
    `diff_stats`) are fixed to `0` / `none`; no claim depends on them. -/
def build_files (entries : List Entry) (idChars : List Char) : List GitFile :=
  let ids := generate_ids (entries.map Entry.path) idChars
  List.zipWith
    (fun e p =>
      { mtime := 0, rel_path := e.path, file_type := e.ftype,
        stable_id := ⟨p.1, p.2⟩, diff_stats := none })
    entries ids

/-- The `while id_chars.len().pow(length) < n` loop of
    `interactive::generate_keys`, as structural recursion on fuel.  For a base
    of at least 2 a fuel of `n` is never exhausted (the Rust loop diverges for
    smaller bases, which the config layer rules out). -/
def keyLenAux (base n : Nat) : Nat → Nat → Nat
  | 0, len => len
  | fuel + 1, len => if base ^ len < n then keyLenAux base n fuel (len + 1) else len

/-- The key length chosen by `interactive::generate_keys`. -/
def key_length (base n : Nat) : Nat :=
  keyLenAux base n n 1

/-- The per-index key construction of `interactive::generate_keys`: `k` rounds
    of `key.insert(0, id_chars[idx % id_chars.len()]); idx /= id_chars.len()`,
    producing the base-`|alphabet|` digits of `idx`, most significant first. -/
def keyDigits (idChars : List Char) : Nat → Nat → List Char
  | 0, _ => []
  | k + 1, idx =>
    keyDigits idChars k (idx / idChars.length) ++
      [idChars.getD (idx % idChars.length) 'a']

/-- Function `interactive::generate_keys` from f.rs. -/
def generate_keys (n : Nat) (idChars : List Char) : List (List Char) :=
  if n = 0 then []
  else (List.range n).map (keyDigits idChars (key_length idChars.length n))

/-- Rust `Iterator::position(|k| k == &prefix)` over the key list. -/
def position (keys : List (List Char)) (target : List Char) : Option Nat :=
  match keys with
  | [] => none
  | k :: rest => if k = target then some 0 else (position rest target).map (· + 1)

/-- States of the narrowing loop of `interactive::run`: the mutable `prefix`
    while the loop keeps polling, and the two ways the closure returns. -/
inductive MState where
  | Collecting (p : List Char)
  | Selected (f : GitFile)
  | Cancelled
deriving DecidableEq

/-- Input events of the narrowing loop: Ctrl-C, a typed character, Escape, or
    any other key code (the `_ => {}` arm). -/
inductive KeyEvent where
  | ctrlC
  | char (c : Char)
  | esc
  | other
deriving DecidableEq

/-- The body of the `KeyCode::Char(c) if id_chars.contains(&c)` arm of
    `interactive::run`: push `c`, try an exact key match at full key length
    (returning the selected file), otherwise clear on a dead prefix.  In the
    failed exact-match branch Rust clears the prefix and re-filters with the
    now-empty prefix, so both arms of that inner test collect the empty
    prefix. -/
def stepChar (files : List GitFile) (keys : List (List Char)) (keyLen : Nat)
    (p : List Char) (c : Char) : MState :=
  if (p ++ [c]).length = keyLen then
    match position keys (p ++ [c]) with
    | some idx => MState.Selected (files.getD idx dfltFile)
    | none =>
      if (keys.filter fun k => List.isPrefixOf ([] : List Char) k).isEmpty then
        MState.Collecting []
      else MState.Collecting []
  else
    if (keys.filter fun k => List.isPrefixOf (p ++ [c]) k).isEmpty then MState.Collecting []
    else MState.Collecting (p ++ [c])

/-- One transition of the narrowing loop of `interactive::run`.  In a
    `Collecting` state: Ctrl-C and `'q'` return `None` (cancelled), an
    alphabet character narrows, Escape clears the prefix, and every other
    event is ignored.  `Selected` and `Cancelled` are terminal. -/
def step (idChars : List Char) (files : List GitFile) (keys : List (List Char))
    (keyLen : Nat) : MState → KeyEvent → MState
  | MState.Collecting _, KeyEvent.ctrlC => MState.Cancelled
  | MState.Collecting p, KeyEvent.char c =>
    if c = 'q' then MState.Cancelled
    else if idChars.contains c then stepChar files keys keyLen p c
    else MState.Collecting p
  | MState.Collecting _, KeyEvent.esc => MState.Collecting []
  | MState.Collecting p, KeyEvent.other => MState.Collecting p
  | MState.Selected f, _ => MState.Selected f
  | MState.Cancelled, _ => MState.Cancelled

/-- The narrowing loop of `interactive::run` on a list of input events:
    keys are generated for the current file list, the key length is read off
    the first key, and events are consumed from the empty prefix. -/
def run_machine (idChars : List Char) (files : List GitFile) (es : List KeyEvent) : MState :=
  let keys := generate_keys files.length idChars
  es.foldl (step idChars files keys (keys.headD []).length) (MState.Collecting [])

/-- Modelled from the spec, section 4.1: the FNV-1a hash written as plain
    recursion over the byte list with an explicit accumulator. -/
def fnv1a_spec : Nat → List Nat → Nat
  | h, [] => h
  | h, b :: rest => fnv1a_spec (((h ^^^ b) * FNV_PRIME) % U64) rest

/-- Modelled from the spec, section 4.1: the 12 fingerprint symbols in closed
    form, symbol `i` being digit `i` of the hash in base `|alphabet|`,
    least-significant digit first. -/
def fingerprint_spec (s : List Nat) (idChars : List Char) : List Char :=
  (List.range 12).map fun i =>
    idChars.getD (fnv1a_spec FNV_OFFSET s / idChars.length ^ i % idChars.length) 'a'

/-- Modelled from the spec, section 4.4: key `i` as the `L`-digit base-
    `|alphabet|` expansion of `i`, most-significant digit first, mapped
    through the alphabet. -/
def key_spec (idChars : List Char) (L i : Nat) : List Char :=
  (List.range L).map fun t =>
    idChars.getD (i / idChars.length ^ (L - 1 - t) % idChars.length) 'a'

/-! Helper lemmas. -/

theorem getD_map_eq {α β : Type} (f : α → β) (l : List α) (i : Nat) (hi : i < l.length)
    (d : α) (d' : β) : (l.map f).getD i d' = f (l.getD i d) := by
  rw [List.getD_eq_getElem l d hi,
    List.getD_eq_getElem (l.map f) d' (by simpa using hi), List.getElem_map]

theorem getD_range_map {β : Type} (n : Nat) (f : Nat → β) (i : Nat) (hi : i < n) (d : β) :
    ((List.range n).map f).getD i d = f i := by
  rw [getD_map_eq f (List.range n) i (by simpa using hi) 0,
    List.getD_eq_getElem _ 0 (by simpa using hi), List.getElem_range]

theorem getD_mem {α : Type} (l : List α) (i : Nat) (hi : i < l.length) (d : α) :
    l.getD i d ∈ l := by
  rw [List.getD_eq_getElem l d hi]
  exact List.getElem_mem hi

theorem hashDigits_length (idChars : List Char) (k h : Nat) :
    (hashDigits idChars k h).length = k := by
  induction k generalizing h with
  | zero => rfl
  | succ k ih => simp [hashDigits, ih]

theorem hash_to_id_chars_length (s : List Nat) (idChars : List Char) :
    (hash_to_id_chars s idChars).length = 12 := by
  unfold hash_to_id_chars
  exact hashDigits_length idChars 12 _

theorem fnv1a_foldl_eq_spec (s : List Nat) (h : Nat) :
    s.foldl (fun h b => ((h ^^^ b) * FNV_PRIME) % U64) h = fnv1a_spec h s := by
  induction s generalizing h with
  | nil => rfl
  | cons b rest ih => simp [fnv1a_spec, List.foldl_cons, ih]

theorem hashDigits_eq_digits (idChars : List Char) (k h : Nat) :
    hashDigits idChars k h =
      (List.range k).map fun i => idChars.getD (h / idChars.length ^ i % idChars.length) 'a' := by
  induction k generalizing h with
  | zero => rfl
  | succ k ih =>
    rw [List.range_succ_eq_map, List.map_cons, List.map_map]
    show idChars.getD (h % idChars.length) 'a' :: hashDigits idChars k (h / idChars.length) = _
    rw [ih]
    congr 1
    · congr 1
      simp
    · apply List.map_congr_left
      intro t _
      have : h / idChars.length / idChars.length ^ t = h / idChars.length ^ (t + 1) := by
        rw [Nat.div_div_eq_div_mul, ← pow_succ' idChars.length t]
      simp [Function.comp, this]

/-- Claim C3: for every path and every alphabet with at least two characters,
    `hash_to_id_chars` computes the spec's reference fingerprint: the FNV-1a
    hash of the path bytes, expanded into exactly 12 base-`|alphabet|` digits,
    least-significant digit first, mapped through the alphabet. -/
theorem c3_fingerprint_reference (s : List Nat) (idChars : List Char)
    (h2 : 2 ≤ idChars.length) :
    hash_to_id_chars s idChars = fingerprint_spec s idChars ∧
    (hash_to_id_chars s idChars).length = 12 := by
  constructor
  · unfold hash_to_id_chars fingerprint_spec fnv1a_hash
    rw [fnv1a_foldl_eq_spec]
    exact hashDigits_eq_digits idChars 12 _
  · exact hash_to_id_chars_length s idChars

/-- Witness for C3 at the byte list of the one-character path `a` and the
    default alphabet. -/
theorem c3_fingerprint_reference_witness :
    hash_to_id_chars [97] ['d', 'f', 'g', 'h', 'l', 'k', 's', 'a'] =
      fingerprint_spec [97] ['d', 'f', 'g', 'h', 'l', 'k', 's', 'a'] ∧
    (hash_to_id_chars [97] ['d', 'f', 'g', 'h', 'l', 'k', 's', 'a']).length = 12 :=
  c3_fingerprint_reference [97] ['d', 'f', 'g', 'h', 'l', 'k', 's', 'a'] (by decide)

theorem matches_eq_decide (s : StableId) (input : List Char) :
    s.matches input = decide (input <+: s.full_hash) := by
  rw [Bool.eq_iff_iff]
  simp [StableId.matches, List.isPrefixOf_iff_prefix]

theorem filter_matches_eq (files : List GitFile) (input : List Char) :
    (files.filter fun f => f.stable_id.matches input) =
      files.filter fun f => decide (input <+: f.stable_id.full_hash) := by
  apply List.filter_congr
  intro f _
  exact matches_eq_decide f.stable_id input

theorem find_file_by_id_of_nil (files : List GitFile) (input : List Char)
    (h : (files.filter fun f => f.stable_id.matches input) = []) :
    find_file_by_id files input = IdMatch.NotFound := by
  unfold find_file_by_id
  rw [h]

theorem find_file_by_id_of_singleton (files : List GitFile) (input : List Char) (f : GitFile)
    (h : (files.filter fun f => f.stable_id.matches input) = [f]) :
    find_file_by_id files input = IdMatch.Unique f := by
  unfold find_file_by_id
  rw [h]

theorem find_file_by_id_of_two_le (files : List GitFile) (input : List Char)
    (h : 2 ≤ (files.filter fun f => f.stable_id.matches input).length) :
    find_file_by_id files input
      = IdMatch.Ambiguous (files.filter fun f => f.stable_id.matches input).length := by
  unfold find_file_by_id
  match hm : files.filter fun f => f.stable_id.matches input with
  | [] => rw [hm] at h; simp at h
  | [g] => rw [hm] at h; simp at h
  | a :: b :: t => rw [hm]

/-- Claim C1: the resolver's matching predicate holds exactly when the input
    is a prefix of the file's full fingerprint (never its display prefix),
    and `find_file_by_id` classifies by match count: zero matches give
    `NotFound`, exactly one gives `Unique` of that file, and two or more give
    `Ambiguous` with the match count. -/
theorem c1_resolver_classification (files : List GitFile) (input : List Char) :
    (∀ s : StableId, s.matches input = true ↔ input <+: s.full_hash) ∧
    ((files.filter fun f => decide (input <+: f.stable_id.full_hash)).length = 0 →
      find_file_by_id files input = IdMatch.NotFound) ∧
    (∀ f, (files.filter fun f => decide (input <+: f.stable_id.full_hash)) = [f] →
      find_file_by_id files input = IdMatch.Unique f) ∧
    (∀ n, (files.filter fun f => decide (input <+: f.stable_id.full_hash)).length = n →
      2 ≤ n → find_file_by_id files input = IdMatch.Ambiguous n) := by
  refine ⟨?_, ?_, ?_, ?_⟩
  · intro s
    simp [StableId.matches, List.isPrefixOf_iff_prefix]
  · intro h
    apply find_file_by_id_of_nil
    rw [filter_matches_eq]
    exact List.length_eq_zero.mp h
  · intro f h
    apply find_file_by_id_of_singleton
    rw [filter_matches_eq]
    exact h
  · intro n hn h2
    have := find_file_by_id_of_two_le files input
      (by rw [filter_matches_eq, hn]; exact h2)
    rw [this, filter_matches_eq, hn]

/-- Witness for C1 at a two-file list both of whose fingerprints start with
    `z`: the resolver reports `Ambiguous 2`. -/
theorem c1_resolver_classification_witness :
    find_file_by_id
        [{ dfltFile with stable_id := ⟨['z'], ['z', 'a']⟩ },
         { dfltFile with stable_id := ⟨['z', 'b'], ['z', 'b']⟩ }] ['z']
      = IdMatch.Ambiguous 2 :=
  (c1_resolver_classification
      [{ dfltFile with stable_id := ⟨['z'], ['z', 'a']⟩ },
       { dfltFile with stable_id := ⟨['z', 'b'], ['z', 'b']⟩ }] ['z']).2.2.2
    2 (by decide) (by decide)

theorem filter_eq_singleton_of_pos {α : Type} (l : List α) (pr : α → Bool) (d : α)
    (i : Nat) (hi : i < l.length) (hpi : pr (l.getD i d) = true)
    (hpj : ∀ j, j < l.length → j ≠ i → pr (l.getD j d) = false) :
    l.filter pr = [l.getD i d] := by
  induction l generalizing i with
  | nil => simp at hi
  | cons x t ih =>
    cases i with
    | zero =>
      rw [List.getD_cons_zero] at hpi ⊢
      rw [List.filter_cons_of_pos hpi]
      have ht : t.filter pr = [] := by
        rw [List.filter_eq_nil_iff]
        intro a ha
        rcases List.mem_iff_getElem.mp ha with ⟨j, hj, rfl⟩
        have := hpj (j + 1) (by simpa using Nat.succ_lt_succ hj) (Nat.succ_ne_zero j)
        rw [List.getD_cons_succ, List.getD_eq_getElem t d hj] at this
        simp [this]
      rw [ht]
    | succ i' =>
      have hx : pr x = false := by
        have := hpj 0 (Nat.succ_pos _) (by omega)
        rwa [List.getD_cons_zero] at this
      rw [List.getD_cons_succ] at hpi ⊢
      rw [List.filter_cons_of_neg (by simp [hx])]
      exact ih i' (by simpa using Nat.lt_of_succ_lt_succ hi) hpi fun j hj hji => by
        have := hpj (j + 1) (by simpa using Nat.succ_lt_succ hj) (by omega)
        rwa [List.getD_cons_succ] at this

/-- Claim C7: if the length-`k` prefix of entry `i`'s full fingerprint is a
    prefix of no other entry's full fingerprint in the list, then resolving
    that prefix returns `Unique` of entry `i`. -/
theorem c7_resolution_monotonicity (files : List GitFile) (i k : Nat)
    (hi : i < files.length) (hk1 : 1 ≤ k) (hk : k ≤ 12)
    (huniq : ∀ j, j < files.length → j ≠ i →
      ¬ ((files.getD i dfltFile).stable_id.full_hash.take k <+:
          (files.getD j dfltFile).stable_id.full_hash)) :
    find_file_by_id files ((files.getD i dfltFile).stable_id.full_hash.take k)
      = IdMatch.Unique (files.getD i dfltFile) := by
  apply find_file_by_id_of_singleton
  apply filter_eq_singleton_of_pos files _ dfltFile i hi
  · rw [matches_eq_decide]
    simp [ List.take_prefix]
  · intro j hj hji
    rw [matches_eq_decide]
    simpa using huniq j hj hji

/-- Witness for C7: a two-file list whose fingerprints diverge on the first
    symbol; the length-1 prefix of the first file's fingerprint resolves
    uniquely to it. -/
theorem c7_resolution_monotonicity_witness :
    find_file_by_id
        [{ dfltFile with stable_id := ⟨['z'], ['z', 'a']⟩ },
         { dfltFile with stable_id := ⟨['w'], ['w', 'a']⟩ }]
        (([{ dfltFile with stable_id := ⟨['z'], ['z', 'a']⟩ },
            { dfltFile with stable_id := ⟨['w'], ['w', 'a']⟩ }].getD 0
              dfltFile).stable_id.full_hash.take 1)
      = IdMatch.Unique
          ([{ dfltFile with stable_id := ⟨['z'], ['z', 'a']⟩ },
            { dfltFile with stable_id := ⟨['w'], ['w', 'a']⟩ }].getD 0 dfltFile) :=
  c7_resolution_monotonicity
    [{ dfltFile with stable_id := ⟨['z'], ['z', 'a']⟩ },
     { dfltFile with stable_id := ⟨['w'], ['w', 'a']⟩ }] 0 1
    (by decide) (by decide) (by decide) (by decide)

theorem searchLenAux_ge (paths : List (List Nat)) (hashes : List (List Char))
    (i hlen fuel len : Nat) : len ≤ searchLenAux paths hashes i hlen fuel len := by
  induction fuel generalizing len with
  | zero => exact Nat.le_refl len
  | succ fuel ih =>
    unfold searchLenAux
    split
    · exact Nat.le_refl len
    · split
      · exact Nat.le_trans (Nat.le_succ len) (ih (len + 1))
      · exact Nat.le_refl len

theorem searchLenAux_collides (paths : List (List Nat)) (hashes : List (List Char))
    (i hlen fuel len : Nat) (m : Nat) (hm1 : len ≤ m)
    (hm2 : m < searchLenAux paths hashes i hlen fuel len) :
    collides paths hashes i m = true := by
  induction fuel generalizing len with
  | zero => simp only [searchLenAux] at hm2; omega
  | succ fuel ih =>
    unfold searchLenAux at hm2
    split at hm2
    · omega
    · split at hm2
      · rcases Nat.eq_or_lt_of_le hm1 with rfl | hlt
        · assumption
        · exact ih (len + 1) hlt hm2
      · omega

theorem searchLenAux_eq_top (paths : List (List Nat)) (hashes : List (List Char))
    (i hlen fuel len : Nat) (hfuel : hlen < fuel + len) (hlen' : len ≤ hlen + 1)
    (hall : ∀ m, len ≤ m → m ≤ hlen → collides paths hashes i m = true) :
    searchLenAux paths hashes i hlen fuel len = hlen + 1 := by
  induction fuel generalizing len with
  | zero => simp only [searchLenAux]; omega
  | succ fuel ih =>
    unfold searchLenAux
    split
    · omega
    · rename_i hnl
      rw [hall len (Nat.le_refl len) (by omega)]
      simp only [if_true]
      exact ih (len + 1) (by omega) (by omega) fun m hm1 hm2 => hall m (by omega) hm2

theorem collides_iff (paths : List (List Nat)) (hashes : List (List Char)) (i len : Nat) :
    collides paths hashes i len = true ↔
      ∃ j, j < hashes.length ∧ i ≠ j ∧ paths.getD i [] ≠ paths.getD j [] ∧
        len ≤ (hashes.getD j []).length ∧
        (hashes.getD i []).take len = (hashes.getD j []).take len := by
  unfold collides
  simp only [List.any_eq_true, List.mem_range, Bool.and_eq_true, decide_eq_true_eq]
  constructor
  · rintro ⟨j, hj, ⟨⟨hij, hp⟩, hl⟩, ht⟩
    exact ⟨j, hj, hij, hp, hl, ht⟩
  · rintro ⟨j, hj, hij, hp, hl, ht⟩
    exact ⟨j, hj, ⟨⟨hij, hp⟩, hl⟩, ht⟩

theorem generate_ids_length (paths : List (List Nat)) (idChars : List Char) :
    (generate_ids paths idChars).length = paths.length := by
  unfold generate_ids
  simp

theorem generate_ids_getD (paths : List (List Nat)) (idChars : List Char) (i : Nat)
    (hi : i < paths.length) :
    (generate_ids paths idChars).getD i ([], []) =
      ((hash_to_id_chars (paths.getD i []) idChars).take
          (min (searchLenAux paths (paths.map fun p => hash_to_id_chars p idChars) i 12 13 1)
            12),
        hash_to_id_chars (paths.getD i []) idChars) := by
  unfold generate_ids
  simp only
  rw [getD_range_map (paths.map fun p => hash_to_id_chars p idChars).length _ i
    (by simpa using hi)]
  rw [getD_map_eq (fun p => hash_to_id_chars p idChars) paths i hi []]
  rw [hash_to_id_chars_length]

theorem hashes_getD_length (paths : List (List Nat)) (idChars : List Char) (j : Nat)
    (hj : j < paths.length) :
    ((paths.map fun p => hash_to_id_chars p idChars).getD j []).length = 12 := by
  rw [getD_map_eq (fun p => hash_to_id_chars p idChars) paths j hj []]
  exact hash_to_id_chars_length _ idChars

/-- Claim C2: each assigned display id is non-empty, is a prefix of the
    entry's fingerprint, and cannot be shortened by one symbol: at the
    shortened length its prefix coincides with the same-length fingerprint
    prefix of some other entry whose path differs. -/
theorem c2_display_minimality (paths : List (List Nat)) (idChars : List Char)
    (h2 : 2 ≤ idChars.length) (hnd : idChars.Nodup) (i : Nat) (hi : i < paths.length) :
    ((generate_ids paths idChars).getD i ([], [])).1 ≠ [] ∧
    ((generate_ids paths idChars).getD i ([], [])).1 <+:
      hash_to_id_chars (paths.getD i []) idChars ∧
    (1 < ((generate_ids paths idChars).getD i ([], [])).1.length →
      ∃ j, j < paths.length ∧ j ≠ i ∧ paths.getD j [] ≠ paths.getD i [] ∧
        (hash_to_id_chars (paths.getD i []) idChars).take
            (((generate_ids paths idChars).getD i ([], [])).1.length - 1) =
          (hash_to_id_chars (paths.getD j []) idChars).take
            (((generate_ids paths idChars).getD i ([], [])).1.length - 1)) := by
  rw [generate_ids_getD paths idChars i hi]
  set hashes := paths.map fun p => hash_to_id_chars p idChars with hhashes
  set s := searchLenAux paths hashes i 12 13 1 with hs
  have hs1 : 1 ≤ s := searchLenAux_ge paths hashes i 12 13 1
  have hlen12 : (hash_to_id_chars (paths.getD i []) idChars).length = 12 :=
    hash_to_id_chars_length _ idChars
  have hdl : ((hash_to_id_chars (paths.getD i []) idChars).take (min s 12)).length
      = min s 12 := by
    rw [List.length_take, hlen12]
    omega
  refine ⟨?_, List.take_prefix _ _, ?_⟩
  · intro hnil
    have := congrArg List.length hnil
    rw [hdl] at this
    simp at this
    omega
  · intro hgt
    rw [hdl] at hgt ⊢
    have hcol : collides paths hashes i (min s 12 - 1) = true := by
      apply searchLenAux_collides paths hashes i 12 13 1 (min s 12 - 1) (by omega) (by omega)
    rcases (collides_iff paths hashes i (min s 12 - 1)).mp hcol with
      ⟨j, hj, hij, hp, _, ht⟩
    have hjp : j < paths.length := by simpa [hhashes] using hj
    refine ⟨j, hjp, fun hji => hij hji.symm, fun hpe => hp hpe.symm, ?_⟩
    have hgi : hashes.getD i [] = hash_to_id_chars (paths.getD i []) idChars := by
      rw [hhashes, getD_map_eq (fun p => hash_to_id_chars p idChars) paths i hi []]
    have hgj : hashes.getD j [] = hash_to_id_chars (paths.getD j []) idChars := by
      rw [hhashes, getD_map_eq (fun p => hash_to_id_chars p idChars) paths j hjp []]
    rw [hgi, hgj] at ht
    exact ht

/-- Witness for C2 at a two-path list over the default alphabet. -/
theorem c2_display_minimality_witness :
    ((generate_ids [[97], [98]] ['d', 'f', 'g', 'h', 'l', 'k', 's', 'a']).getD 0
        ([], [])).1 ≠ [] ∧
    ((generate_ids [[97], [98]] ['d', 'f', 'g', 'h', 'l', 'k', 's', 'a']).getD 0
        ([], [])).1 <+:
      hash_to_id_chars ([[97], [98]].getD 0 []) ['d', 'f', 'g', 'h', 'l', 'k', 's', 'a'] ∧
    (1 < ((generate_ids [[97], [98]] ['d', 'f', 'g', 'h', 'l', 'k', 's', 'a']).getD 0
        ([], [])).1.length →
      ∃ j, j < [[97], [98]].length ∧ j ≠ 0 ∧
        [[97], [98]].getD j [] ≠ [[97], [98]].getD 0 [] ∧
        (hash_to_id_chars ([[97], [98]].getD 0 []) ['d', 'f', 'g', 'h', 'l', 'k', 's', 'a']).take
            (((generate_ids [[97], [98]] ['d', 'f', 'g', 'h', 'l', 'k', 's', 'a']).getD 0
                ([], [])).1.length - 1) =
          (hash_to_id_chars ([[97], [98]].getD j [])
              ['d', 'f', 'g', 'h', 'l', 'k', 's', 'a']).take
            (((generate_ids [[97], [98]] ['d', 'f', 'g', 'h', 'l', 'k', 's', 'a']).getD 0
                ([], [])).1.length - 1)) :=
  c2_display_minimality [[97], [98]] ['d', 'f', 'g', 'h', 'l', 'k', 's', 'a']
    (by decide) (by decide) 0 (by decide)

/-- Claim C8: when an entry's full 12-symbol fingerprint coincides with the
    full fingerprint of another entry with a different path, the prefix
    search still terminates and the entry's display id degrades to exactly
    the full 12-symbol fingerprint. -/
theorem c8_full_collision (paths : List (List Nat)) (idChars : List Char)
    (h2 : 2 ≤ idChars.length) (i j : Nat) (hi : i < paths.length) (hj : j < paths.length)
    (hij : i ≠ j) (hp : paths.getD i [] ≠ paths.getD j [])
    (hh : hash_to_id_chars (paths.getD i []) idChars
      = hash_to_id_chars (paths.getD j []) idChars) :
    ((generate_ids paths idChars).getD i ([], [])).1
      = hash_to_id_chars (paths.getD i []) idChars ∧
    ((generate_ids paths idChars).getD i ([], [])).1.length = 12 := by
  rw [generate_ids_getD paths idChars i hi]
  set hashes := paths.map fun p => hash_to_id_chars p idChars with hhashes
  have hgi : hashes.getD i [] = hash_to_id_chars (paths.getD i []) idChars := by
    rw [hhashes, getD_map_eq (fun p => hash_to_id_chars p idChars) paths i hi []]
  have hgj : hashes.getD j [] = hash_to_id_chars (paths.getD j []) idChars := by
    rw [hhashes, getD_map_eq (fun p => hash_to_id_chars p idChars) paths j hj []]
  have hall : ∀ m, 1 ≤ m → m ≤ 12 → collides paths hashes i m = true := by
    intro m _ hm2
    apply (collides_iff paths hashes i m).mpr
    refine ⟨j, by simpa [hhashes] using hj, hij, hp, ?_, ?_⟩
    · rw [hgj, hash_to_id_chars_length]
      exact hm2
    · rw [hgi, hgj, hh]
  have hs : searchLenAux paths hashes i 12 13 1 = 13 :=
    searchLenAux_eq_top paths hashes i 12 13 1 (by omega) (by omega) fun m hm1 hm2 =>
      hall m hm1 hm2
  rw [hs]
  have hlen12 : (hash_to_id_chars (paths.getD i []) idChars).length = 12 :=
    hash_to_id_chars_length _ idChars
  have h1312 : min 13 12 = 12 := by decide
  constructor
  · rw [h1312, ← hlen12, List.take_length]
  · rw [List.length_take, h1312, hlen12]
    decide

/-- Witness for C8: the paths `bmp` and `caa` have identical 12-symbol
    fingerprints over the alphabet `df`, and the first entry's display id
    degrades to its full fingerprint. -/
theorem c8_full_collision_witness :
    ((generate_ids [[98, 109, 112], [99, 97, 97]] ['d', 'f']).getD 0 ([], [])).1
      = hash_to_id_chars ([[98, 109, 112], [99, 97, 97]].getD 0 []) ['d', 'f'] ∧
    ((generate_ids [[98, 109, 112], [99, 97, 97]] ['d', 'f']).getD 0 ([], [])).1.length
      = 12 :=
  c8_full_collision [[98, 109, 112], [99, 97, 97]] ['d', 'f'] (by decide) 0 1
    (by decide) (by decide) (by decide) (by decide) (by decide)

/-- A default `Entry`. -/
def dfltEntry : Entry := ⟨[], FileType.Unstaged⟩

theorem build_files_length (entries : List Entry) (idChars : List Char) :
    (build_files entries idChars).length = entries.length := by
  unfold build_files
  rw [List.length_zipWith, generate_ids_length]
  simp

theorem build_files_getD (entries : List Entry) (idChars : List Char) (i : Nat)
    (hi : i < entries.length) :
    (build_files entries idChars).getD i dfltFile =
      { mtime := 0, rel_path := (entries.getD i dfltEntry).path,
        file_type := (entries.getD i dfltEntry).ftype,
        stable_id :=
          ⟨((generate_ids (entries.map Entry.path) idChars).getD i ([], [])).1,
            ((generate_ids (entries.map Entry.path) idChars).getD i ([], [])).2⟩,
        diff_stats := none } := by
  have hbl : i < (build_files entries idChars).length := by
    rw [build_files_length]; exact hi
  have hil : i < (generate_ids (entries.map Entry.path) idChars).length := by
    rw [generate_ids_length]; simpa using hi
  rw [List.getD_eq_getElem _ dfltFile hbl]
  unfold build_files
  simp only
  rw [List.getElem_zipWith]
  rw [List.getD_eq_getElem entries dfltEntry hi,
    List.getD_eq_getElem _ ([], []) hil]

theorem two_le_countP {α : Type} (l : List α) (pr : α → Bool) (d : α) (i j : Nat)
    (hij : i < j) (hj : j < l.length)
    (hpi : pr (l.getD i d) = true) (hpj : pr (l.getD j d) = true) :
    2 ≤ l.countP pr := by
  induction l generalizing i j with
  | nil => simp at hj
  | cons x t ih =>
    cases i with
    | zero =>
      rw [List.getD_cons_zero] at hpi
      obtain ⟨j', rfl⟩ : ∃ j', j = j' + 1 := ⟨j - 1, by omega⟩
      rw [List.getD_cons_succ] at hpj
      have hj' : j' < t.length := by simpa using Nat.lt_of_succ_lt_succ hj
      have h1 : 0 < t.countP pr := by
        apply List.countP_pos_iff.mpr
        exact ⟨t.getD j' d, getD_mem t j' hj' d, hpj⟩
      rw [List.countP_cons, hpi, if_pos rfl]
      omega
    | succ i' =>
      obtain ⟨j', rfl⟩ : ∃ j', j = j' + 1 := ⟨j - 1, by omega⟩
      rw [List.getD_cons_succ] at hpi hpj
      have := ih i' j' (by omega) (by simpa using Nat.lt_of_succ_lt_succ hj) hpi hpj
      rw [List.countP_cons]
      exact Nat.le_trans this (Nat.le_add_right _ _)

/-- Claim C9: when the same path occurs at two positions of the entry list,
    any input that is a prefix of that path's fingerprint — in particular the
    non-empty display id assigned to such an entry — matches both duplicates,
    so resolution returns `Ambiguous` with a count of at least 2 and never
    `Unique`. -/
theorem c9_duplicate_paths (entries : List Entry) (idChars : List Char)
    (h2 : 2 ≤ idChars.length) (i j : Nat)
    (hi : i < entries.length) (hj : j < entries.length) (hij : i ≠ j)
    (hpp : (entries.getD i dfltEntry).path = (entries.getD j dfltEntry).path)
    (input : List Char) (hne : input ≠ [])
    (hpre : input <+: hash_to_id_chars (entries.getD i dfltEntry).path idChars) :
    (∃ n, 2 ≤ n ∧
      find_file_by_id (build_files entries idChars) input = IdMatch.Ambiguous n) ∧
    (∀ f, find_file_by_id (build_files entries idChars) input ≠ IdMatch.Unique f) ∧
    (∀ f, find_file_by_id (build_files entries idChars)
        ((build_files entries idChars).getD i dfltFile).stable_id.display
      ≠ IdMatch.Unique f) := by
  have hpaths : ∀ t, t < entries.length →
      (entries.map Entry.path).getD t [] = (entries.getD t dfltEntry).path := by
    intro t ht
    exact getD_map_eq Entry.path entries t ht dfltEntry []
  have hfull : ∀ t, t < entries.length →
      ((build_files entries idChars).getD t dfltFile).stable_id.full_hash
        = hash_to_id_chars ((entries.getD t dfltEntry).path) idChars := by
    intro t ht
    rw [build_files_getD entries idChars t ht]
    simp only
    rw [generate_ids_getD (entries.map Entry.path) idChars t (by simpa using ht)]
    rw [hpaths t ht]
  have hdisp : ((build_files entries idChars).getD i dfltFile).stable_id.display <+:
      hash_to_id_chars ((entries.getD i dfltEntry).path) idChars := by
    rw [build_files_getD entries idChars i hi]
    simp only
    rw [generate_ids_getD (entries.map Entry.path) idChars i (by simpa using hi)]
    rw [hpaths i hi]
    exact List.take_prefix _ _
  have hcore : ∀ inp : List Char,
      inp <+: hash_to_id_chars ((entries.getD i dfltEntry).path) idChars →
      ∃ n, 2 ≤ n ∧
        find_file_by_id (build_files entries idChars) inp = IdMatch.Ambiguous n := by
    intro inp hinp
    have hmatch : ∀ t, t < entries.length →
        (entries.getD t dfltEntry).path = (entries.getD i dfltEntry).path →
        ((build_files entries idChars).getD t dfltFile).stable_id.matches inp = true := by
      intro t ht hteq
      rw [matches_eq_decide, hfull t ht, hteq]
      simpa using hinp
    have hmi : ((build_files entries idChars).getD i dfltFile).stable_id.matches inp
        = true := hmatch i hi rfl
    have hmj : ((build_files entries idChars).getD j dfltFile).stable_id.matches inp
        = true := hmatch j hj hpp.symm
    have hcount : 2 ≤ ((build_files entries idChars).filter
        fun f => f.stable_id.matches inp).length := by
      rw [← List.countP_eq_length_filter]
      rcases Nat.lt_or_ge i j with hlt | hge
      · exact two_le_countP (build_files entries idChars) _ dfltFile i j hlt
          (by rw [build_files_length]; exact hj) hmi hmj
      · have hlt : j < i := by omega
        exact two_le_countP (build_files entries idChars) _ dfltFile j i hlt
          (by rw [build_files_length]; exact hi) hmj hmi
    exact ⟨_, hcount, find_file_by_id_of_two_le (build_files entries idChars) inp hcount⟩
  refine ⟨hcore input hpre, ?_, ?_⟩
  · intro f hf
    rcases hcore input hpre with ⟨n, _, hn⟩
    rw [hn] at hf
    exact IdMatch.noConfusion hf
  · intro f hf
    rcases hcore _ hdisp with ⟨n, _, hn⟩
    rw [hn] at hf
    exact IdMatch.noConfusion hf

/-- Witness for C9: the same path at both positions of a two-entry list; the
    one-symbol prefix of its fingerprint resolves ambiguously. -/
theorem c9_duplicate_paths_witness :
    ∃ n, 2 ≤ n ∧
      find_file_by_id (build_files [⟨[97], FileType.Unstaged⟩, ⟨[97], FileType.Staged⟩]
          ['d', 'f'])
        ((hash_to_id_chars [97] ['d', 'f']).take 1) = IdMatch.Ambiguous n :=
  (c9_duplicate_paths [⟨[97], FileType.Unstaged⟩, ⟨[97], FileType.Staged⟩] ['d', 'f']
    (by decide) 0 1 (by decide) (by decide) (by decide) (by decide)
    ((hash_to_id_chars [97] ['d', 'f']).take 1) (by decide) (by decide)).1

theorem keyDigits_length (idChars : List Char) (k idx : Nat) :
    (keyDigits idChars k idx).length = k := by
  induction k generalizing idx with
  | zero => rfl
  | succ k ih => simp [keyDigits, ih]

theorem keyDigits_mem (idChars : List Char) (h1 : 1 ≤ idChars.length) (k idx : Nat) :
    ∀ c ∈ keyDigits idChars k idx, c ∈ idChars := by
  induction k generalizing idx with
  | zero => intro c hc; simp [keyDigits] at hc
  | succ k ih =>
    intro c hc
    rw [keyDigits, List.mem_append] at hc
    rcases hc with hc | hc
    · exact ih _ c hc
    · rw [List.mem_singleton] at hc
      subst hc
      exact getD_mem idChars _ (Nat.mod_lt idx (by omega)) 'a'

theorem keyDigits_eq_key_spec (idChars : List Char) (L idx : Nat) :
    keyDigits idChars L idx = key_spec idChars L idx := by
  induction L generalizing idx with
  | zero => rfl
  | succ L ih =>
    unfold key_spec
    rw [List.range_succ, List.map_append, List.map_singleton]
    rw [keyDigits, ih]
    unfold key_spec
    congr 1
    · apply List.map_congr_left
      intro t ht
      rw [List.mem_range] at ht
      have hd : idx / idChars.length / idChars.length ^ (L - 1 - t)
          = idx / idChars.length ^ (L + 1 - 1 - t) := by
        rw [Nat.div_div_eq_div_mul, ← pow_succ' idChars.length]
        congr 2
        omega
      rw [hd]
    · congr 2
      simp

theorem keyDigits_inj_mod (idChars : List Char) (hnd : idChars.Nodup)
    (h1 : 1 ≤ idChars.length) (L i j : Nat)
    (h : keyDigits idChars L i = keyDigits idChars L j) :
    i % idChars.length ^ L = j % idChars.length ^ L := by
  induction L generalizing i j with
  | zero => simp [Nat.mod_one]
  | succ L ih =>
    rw [keyDigits, keyDigits] at h
    have hlen : (keyDigits idChars L (i / idChars.length)).length
        = (keyDigits idChars L (j / idChars.length)).length := by
      rw [keyDigits_length, keyDigits_length]
    rcases List.append_inj h hlen with ⟨hfront, hlast⟩
    have hmod : i % idChars.length = j % idChars.length := by
      have he : idChars.getD (i % idChars.length) 'a'
          = idChars.getD (j % idChars.length) 'a' := by
        simpa using hlast
      have hib : i % idChars.length < idChars.length := Nat.mod_lt i (by omega)
      have hjb : j % idChars.length < idChars.length := Nat.mod_lt j (by omega)
      rw [List.getD_eq_getElem idChars 'a' hib, List.getD_eq_getElem idChars 'a' hjb] at he
      exact (List.Nodup.getElem_inj_iff hnd).mp he
    have hdiv : i / idChars.length % idChars.length ^ L
        = j / idChars.length % idChars.length ^ L := ih _ _ hfront
    rw [pow_succ' idChars.length L, Nat.mod_mul, Nat.mod_mul, hmod, hdiv]

theorem keyLenAux_spec (base n : Nat) (fuel len : Nat)
    (hfuel : n ≤ base ^ (len + fuel)) (hlen : 1 ≤ len) :
    1 ≤ keyLenAux base n fuel len ∧ n ≤ base ^ keyLenAux base n fuel len ∧
      len ≤ keyLenAux base n fuel len ∧
      ∀ M, len ≤ M → n ≤ base ^ M → keyLenAux base n fuel len ≤ M := by
  induction fuel generalizing len with
  | zero =>
    simp only [keyLenAux]
    exact ⟨hlen, by simpa using hfuel, Nat.le_refl len, fun M hM _ => hM⟩
  | succ fuel ih =>
    simp only [keyLenAux]
    split
    · rename_i hlt
      have := ih (len + 1) (by rw [show len + 1 + fuel = len + (fuel + 1) by omega]; exact hfuel)
        (by omega)
      refine ⟨this.1, this.2.1, by omega, ?_⟩
      intro M hM hMn
      rcases Nat.eq_or_lt_of_le hM with rfl | hMlt
      · omega
      · exact this.2.2.2 M (by omega) hMn
    · rename_i hge
      exact ⟨hlen, by omega, Nat.le_refl len, fun M hM _ => hM⟩

theorem key_length_spec (base n : Nat) (h2 : 2 ≤ base) (hn : 1 ≤ n) :
    1 ≤ key_length base n ∧ n ≤ base ^ key_length base n ∧
      ∀ M, 1 ≤ M → n ≤ base ^ M → key_length base n ≤ M := by
  have hfuel : n ≤ base ^ (1 + n) := by
    calc n ≤ 2 ^ n := Nat.le_of_lt (Nat.lt_two_pow n)
    _ ≤ 2 ^ (1 + n) := Nat.pow_le_pow_right (by omega) (by omega)
    _ ≤ base ^ (1 + n) := Nat.pow_le_pow_left h2 _
  have := keyLenAux_spec base n n 1 hfuel (Nat.le_refl 1)
  exact ⟨this.1, this.2.1, this.2.2.2⟩

theorem generate_keys_length (n : Nat) (idChars : List Char) :
    (generate_keys n idChars).length = n := by
  unfold generate_keys
  split
  · simp [*]
  · simp

theorem generate_keys_getD (n : Nat) (idChars : List Char) (hn : 1 ≤ n) (i : Nat)
    (hi : i < n) :
    (generate_keys n idChars).getD i []
      = keyDigits idChars (key_length idChars.length n) i := by
  unfold generate_keys
  rw [if_neg (by omega)]
  exact getD_range_map n _ i hi []

theorem generate_keys_nodup (n : Nat) (idChars : List Char) (h2 : 2 ≤ idChars.length)
    (hnd : idChars.Nodup) : (generate_keys n idChars).Nodup := by
  unfold generate_keys
  split
  · exact List.nodup_nil
  · rename_i hn
    apply List.Nodup.map_on
    · intro x hx y hy hxy
      rw [List.mem_range] at hx hy
      have hbound : n ≤ idChars.length ^ key_length idChars.length n :=
        (key_length_spec idChars.length n h2 (by omega)).2.1
      have := keyDigits_inj_mod idChars hnd (by omega) (key_length idChars.length n) x y hxy
      rwa [Nat.mod_eq_of_lt (by omega), Nat.mod_eq_of_lt (by omega)] at this
    · exact List.nodup_range n

theorem generate_keys_mem_length (n : Nat) (idChars : List Char) (k : List Char)
    (hk : k ∈ generate_keys n idChars) : k.length = key_length idChars.length n := by
  unfold generate_keys at hk
  split at hk
  · simp at hk
  · rw [List.mem_map] at hk
    rcases hk with ⟨i, _, rfl⟩
    exact keyDigits_length idChars _ i

/-- Claim C4: for `n ≥ 1` and an alphabet of at least two distinct
    characters, `generate_keys` returns exactly `n` pairwise-distinct keys,
    all of length `L = key_length |A| n`, where `L` is at least 1,
    `|A| ^ L ≥ n`, and `L` cannot be lowered (`L > 1 → |A| ^ (L-1) < n`);
    key `i` is the `L`-digit base-`|A|` expansion of `i`, most-significant
    digit first, mapped through the alphabet; and `generate_keys 0` is
    empty. -/
theorem c4_generate_keys (n : Nat) (idChars : List Char) (h2 : 2 ≤ idChars.length)
    (hnd : idChars.Nodup) (hn : 1 ≤ n) :
    generate_keys 0 idChars = [] ∧
    (generate_keys n idChars).length = n ∧
    (generate_keys n idChars).Nodup ∧
    (∀ k ∈ generate_keys n idChars, k.length = key_length idChars.length n) ∧
    1 ≤ key_length idChars.length n ∧
    n ≤ idChars.length ^ key_length idChars.length n ∧
    (1 < key_length idChars.length n →
      idChars.length ^ (key_length idChars.length n - 1) < n) ∧
    (∀ i, i < n → (generate_keys n idChars).getD i []
      = key_spec idChars (key_length idChars.length n) i) := by
  have hspec := key_length_spec idChars.length n h2 hn
  refine ⟨rfl, generate_keys_length n idChars, generate_keys_nodup n idChars h2 hnd,
    fun k hk => generate_keys_mem_length n idChars k hk, hspec.1, hspec.2.1, ?_, ?_⟩
  · intro hgt
    by_contra hcon
    push_neg at hcon
    have := hspec.2.2 (key_length idChars.length n - 1) (by omega) hcon
    omega
  · intro i hi
    rw [generate_keys_getD n idChars hn i hi]
    exact keyDigits_eq_key_spec idChars _ i

/-- Witness for C4 at `n = 3` over the two-character alphabet `df`. -/
theorem c4_generate_keys_witness :
    generate_keys 0 ['d', 'f'] = [] ∧
    (generate_keys 3 ['d', 'f']).length = 3 ∧
    (generate_keys 3 ['d', 'f']).Nodup ∧
    (∀ k ∈ generate_keys 3 ['d', 'f'], k.length = key_length 2 3) ∧
    1 ≤ key_length 2 3 ∧
    3 ≤ 2 ^ key_length 2 3 ∧
    (1 < key_length 2 3 → 2 ^ (key_length 2 3 - 1) < 3) ∧
    (∀ i, i < 3 → (generate_keys 3 ['d', 'f']).getD i []
      = key_spec ['d', 'f'] (key_length 2 3) i) := by
  have h := c4_generate_keys 3 ['d', 'f'] (by decide) (by decide) (by decide)
  simpa using h

theorem position_spec (keys : List (List Char)) (target : List Char) (idx : Nat)
    (h : position keys target = some idx) :
    idx < keys.length ∧ keys.getD idx [] = target := by
  induction keys generalizing idx with
  | nil => simp [position] at h
  | cons k rest ih =>
    rw [position] at h
    split at h
    · rename_i heq
      have h0 : 0 = idx := Option.some.inj h
      subst h0
      exact ⟨Nat.succ_pos _, by simpa using heq⟩
    · rcases Option.map_eq_some'.mp h with ⟨a, ha, rfl⟩
      rcases ih a ha with ⟨h1, h2⟩
      exact ⟨by simpa using Nat.succ_lt_succ h1, by simpa using h2⟩

theorem position_getD (keys : List (List Char)) (hnd : keys.Nodup) (idx : Nat)
    (hidx : idx < keys.length) : position keys (keys.getD idx []) = some idx := by
  induction keys generalizing idx with
  | nil => simp at hidx
  | cons k rest ih =>
    rw [List.nodup_cons] at hnd
    cases idx with
    | zero =>
      rw [List.getD_cons_zero, position, if_pos rfl]
    | succ idx' =>
      rw [List.getD_cons_succ, position]
      have hidx' : idx' < rest.length := by simpa using Nat.lt_of_succ_lt_succ hidx
      have hmem : rest.getD idx' [] ∈ rest := getD_mem rest idx' hidx' []
      have hne : ¬ k = rest.getD idx' [] := fun he => hnd.1 (he ▸ hmem)
      rw [if_neg hne, ih hnd.2 idx' hidx']
      rfl

theorem stepChar_cases (files : List GitFile) (keys : List (List Char)) (kl : Nat)
    (p : List Char) (c : Char) :
    (∃ idx, position keys (p ++ [c]) = some idx ∧
      stepChar files keys kl p c = MState.Selected (files.getD idx dfltFile)) ∨
    stepChar files keys kl p c = MState.Collecting [] ∨
    stepChar files keys kl p c = MState.Collecting (p ++ [c]) := by
  by_cases hlen : (p ++ [c]).length = kl
  · cases hpos : position keys (p ++ [c]) with
    | some idx =>
      left
      refine ⟨idx, rfl, ?_⟩
      unfold stepChar
      rw [if_pos hlen, hpos]
    | none =>
      right; left
      unfold stepChar
      rw [if_pos hlen, hpos]
      split
      · rename_i heq
        exact Option.noConfusion heq
      · split <;> rfl
  · right
    unfold stepChar
    rw [if_neg hlen]
    split
    · left; rfl
    · right; rfl

/-- Counterexample for C6: over the default alphabet, typing `z` (outside the
    alphabet, and not the clear or cancel signal) from the initial
    `Collecting` state leaves the machine collecting; it does not cancel as
    the claim states. -/
theorem c6_counterexample :
    run_machine ['d', 'f', 'g', 'h', 'l', 'k', 's', 'a'] [dfltFile] [KeyEvent.char 'z']
      = MState.Collecting [] ∧
    run_machine ['d', 'f', 'g', 'h', 'l', 'k', 's', 'a'] [dfltFile] [KeyEvent.char 'z']
      ≠ MState.Cancelled := by decide

/-- Claim C6 (amended): in any `Collecting` state, typing a character outside
    the alphabet that is not the cancel character `q` (and likewise any
    non-character key other than the clear and cancel signals) is ignored:
    the machine stays in the same `Collecting` state instead of
    transitioning to `Cancelled`. -/
theorem c6_nonalphabet_ignored (idChars : List Char) (files : List GitFile)
    (keys : List (List Char)) (kl : Nat) (p : List Char) (c : Char)
    (hc : c ∉ idChars) (hq : c ≠ 'q') :
    step idChars files keys kl (MState.Collecting p) (KeyEvent.char c)
      = MState.Collecting p ∧
    step idChars files keys kl (MState.Collecting p) KeyEvent.other
      = MState.Collecting p := by
  have hcont : idChars.contains c = false := by simpa using hc
  constructor
  · simp only [step, if_neg hq, hcont]
    rfl
  · rfl

/-- Witness for C6 (amended) at the default alphabet and the character `z`. -/
theorem c6_nonalphabet_ignored_witness :
    step ['d', 'f', 'g', 'h', 'l', 'k', 's', 'a'] [dfltFile] [['d']] 1
        (MState.Collecting []) (KeyEvent.char 'z')
      = MState.Collecting [] ∧
    step ['d', 'f', 'g', 'h', 'l', 'k', 's', 'a'] [dfltFile] [['d']] 1
        (MState.Collecting []) KeyEvent.other
      = MState.Collecting [] :=
  c6_nonalphabet_ignored ['d', 'f', 'g', 'h', 'l', 'k', 's', 'a'] [dfltFile] [['d']] 1
    [] 'z' (by decide) (by decide)

theorem step_preserves (idChars : List Char) (files : List GitFile)
    (keys : List (List Char)) (kl : Nat) (s : MState) (e : KeyEvent)
    (hp : ∀ p, s = MState.Collecting p → 'q' ∉ p)
    (hsel : ∀ g, s = MState.Selected g →
      ∃ idx, idx < keys.length ∧ 'q' ∉ keys.getD idx [] ∧ g = files.getD idx dfltFile) :
    (∀ p, step idChars files keys kl s e = MState.Collecting p → 'q' ∉ p) ∧
    (∀ g, step idChars files keys kl s e = MState.Selected g →
      ∃ idx, idx < keys.length ∧ 'q' ∉ keys.getD idx [] ∧
        g = files.getD idx dfltFile) := by
  cases s with
  | Cancelled =>
    cases e <;>
      exact ⟨fun p hp' => by simp [step] at hp', fun g hg => by simp [step] at hg⟩
  | Selected f0 =>
    cases e <;>
      exact ⟨fun p hp' => by simp [step] at hp',
        fun g hg => by
          simp only [step, MState.Selected.injEq] at hg
          exact hg ▸ hsel f0 rfl⟩
  | Collecting p0 =>
    have hqp : 'q' ∉ p0 := hp p0 rfl
    cases e with
    | ctrlC =>
      exact ⟨fun p hp' => by simp [step] at hp', fun g hg => by simp [step] at hg⟩
    | esc =>
      refine ⟨fun p hp' => ?_, fun g hg => by simp [step] at hg⟩
      simp only [step, MState.Collecting.injEq] at hp'
      rw [← hp']
      simp
    | other =>
      refine ⟨fun p hp' => ?_, fun g hg => by simp [step] at hg⟩
      simp only [step, MState.Collecting.injEq] at hp'
      rw [← hp']
      exact hqp
    | char c =>
      by_cases hcq : c = 'q'
      · subst hcq
        exact ⟨fun p hp' => by simp [step] at hp', fun g hg => by simp [step] at hg⟩
      · by_cases hcm : idChars.contains c
        · have hred : step idChars files keys kl (MState.Collecting p0) (KeyEvent.char c)
              = stepChar files keys kl p0 c := by
            simp only [step, if_neg hcq, hcm]
            rfl
          rcases stepChar_cases files keys kl p0 c with ⟨idx, hpos, hout⟩ | hout | hout
          · refine ⟨fun p hp' => ?_, fun g hg => ?_⟩
            · rw [hred, hout] at hp'
              exact MState.noConfusion hp'
            · rw [hred, hout] at hg
              rcases position_spec keys (p0 ++ [c]) idx hpos with ⟨hidx, hkey⟩
              refine ⟨idx, hidx, ?_, (MState.Selected.inj hg).symm⟩
              rw [hkey]
              intro hqmem
              rcases List.mem_append.mp hqmem with h | h
              · exact hqp h
              · rw [List.mem_singleton] at h
                exact hcq h.symm
          · refine ⟨fun p hp' => ?_, fun g hg => ?_⟩
            · rw [hred, hout] at hp'
              rw [← MState.Collecting.inj hp']
              simp
            · rw [hred, hout] at hg
              exact MState.noConfusion hg
          · refine ⟨fun p hp' => ?_, fun g hg => ?_⟩
            · rw [hred, hout] at hp'
              rw [← MState.Collecting.inj hp']
              intro hqmem
              rcases List.mem_append.mp hqmem with h | h
              · exact hqp h
              · rw [List.mem_singleton] at h
                exact hcq h.symm
            · rw [hred, hout] at hg
              exact MState.noConfusion hg
        · have hred : step idChars files keys kl (MState.Collecting p0) (KeyEvent.char c)
              = MState.Collecting p0 := by
            have hcont : idChars.contains c = false := by
              simp only [Bool.not_eq_true] at hcm
              exact hcm
            simp only [step, if_neg hcq, hcont]
            rfl
          refine ⟨fun p hp' => ?_, fun g hg => ?_⟩
          · rw [hred] at hp'
            rw [← MState.Collecting.inj hp']
            exact hqp
          · rw [hred] at hg
            exact MState.noConfusion hg

theorem foldl_step_selected (idChars : List Char) (files : List GitFile)
    (keys : List (List Char)) (kl : Nat) (es : List KeyEvent) (s0 : MState)
    (hp0 : ∀ p, s0 = MState.Collecting p → 'q' ∉ p)
    (hsel0 : ∀ g, s0 = MState.Selected g →
      ∃ idx, idx < keys.length ∧ 'q' ∉ keys.getD idx [] ∧ g = files.getD idx dfltFile)
    (f : GitFile)
    (h : es.foldl (step idChars files keys kl) s0 = MState.Selected f) :
    ∃ idx, idx < keys.length ∧ 'q' ∉ keys.getD idx [] ∧
      f = files.getD idx dfltFile := by
  induction es generalizing s0 with
  | nil => exact hsel0 f h
  | cons e es ih =>
    rw [List.foldl_cons] at h
    rcases step_preserves idChars files keys kl s0 e hp0 hsel0 with ⟨h1, h2⟩
    exact ih (step idChars files keys kl s0 e) h1 h2 h

/-- Claim C10: in any `Collecting` state the keystroke `q` cancels — it is
    matched before the alphabet arm, so it wins even when `q` belongs to the
    configured alphabet — and consequently any run of the narrowing machine
    that ends in `Selected` selected through a generated key that contains no
    `q`. -/
theorem c10_q_priority (idChars : List Char) (files : List GitFile)
    (hq : 'q' ∈ idChars) :
    (∀ p, step idChars files (generate_keys files.length idChars)
        ((generate_keys files.length idChars).headD []).length
        (MState.Collecting p) (KeyEvent.char 'q') = MState.Cancelled) ∧
    (∀ es f, run_machine idChars files es = MState.Selected f →
      ∃ idx, idx < (generate_keys files.length idChars).length ∧
        'q' ∉ (generate_keys files.length idChars).getD idx [] ∧
        f = files.getD idx dfltFile) := by
  constructor
  · intro p
    simp [step]
  · intro es f h
    unfold run_machine at h
    exact foldl_step_selected idChars files (generate_keys files.length idChars)
      ((generate_keys files.length idChars).headD []).length es (MState.Collecting [])
      (fun p hp => by rw [← MState.Collecting.inj hp]; simp)
      (fun g hg => MState.noConfusion hg) f h

/-- Witness for C10 over the alphabet `qx`: from the empty prefix the
    keystroke `q` cancels immediately. -/
theorem c10_q_priority_witness :
    step ['q', 'x'] [dfltFile] (generate_keys 1 ['q', 'x'])
        ((generate_keys 1 ['q', 'x']).headD []).length
        (MState.Collecting []) (KeyEvent.char 'q') = MState.Cancelled := by
  have h := (c10_q_priority ['q', 'x'] [dfltFile] (by decide)).1 []
  simpa using h

theorem generate_keys_headD_length (n : Nat) (idChars : List Char) (hn : 1 ≤ n) :
    ((generate_keys n idChars).headD []).length = key_length idChars.length n := by
  cases hk : generate_keys n idChars with
  | nil =>
    have := generate_keys_length n idChars
    rw [hk] at this
    simp at this
    omega
  | cons k t =>
    have hmem : k ∈ generate_keys n idChars := by rw [hk]; exact List.mem_cons_self k t
    simpa using generate_keys_mem_length n idChars k hmem

theorem type_key_foldl (idChars : List Char) (files : List GitFile)
    (keys : List (List Char)) (kl : Nat)
    (hkl : ∀ k ∈ keys, k.length = kl) (hnd : keys.Nodup)
    (idx : Nat) (hidx : idx < keys.length) :
    ∀ rest p, p ++ rest = keys.getD idx [] → rest ≠ [] →
      (∀ c ∈ rest, c ∈ idChars) → (∀ c ∈ rest, c ≠ 'q') →
      (rest.map KeyEvent.char).foldl (step idChars files keys kl) (MState.Collecting p)
        = MState.Selected (files.getD idx dfltFile) := by
  intro rest
  induction rest with
  | nil => intro p _ hne _ _; exact absurd rfl hne
  | cons c rest ih =>
    intro p hsplit hne hmem hq
    rw [List.map_cons, List.foldl_cons]
    have hcq : c ≠ 'q' := hq c (List.mem_cons_self c rest)
    have hcm : c ∈ idChars := hmem c (List.mem_cons_self c rest)
    have hcont : idChars.contains c = true := by simpa using hcm
    have hred : step idChars files keys kl (MState.Collecting p) (KeyEvent.char c)
        = stepChar files keys kl p c := by
      simp only [step, if_neg hcq, hcont]
      rfl
    rw [hred]
    have hkmem : keys.getD idx [] ∈ keys := getD_mem keys idx hidx []
    cases rest with
    | nil =>
      have hkey : p ++ [c] = keys.getD idx [] := by simpa using hsplit
      have hlen : (p ++ [c]).length = kl := by rw [hkey]; exact hkl _ hkmem
      unfold stepChar
      rw [if_pos hlen, hkey, position_getD keys hnd idx hidx]
      rfl
    | cons c' rest' =>
      have hsplit' : (p ++ [c]) ++ (c' :: rest') = keys.getD idx [] := by
        simpa using hsplit
      have hlt : (p ++ [c]).length < kl := by
        have hl := congrArg List.length hsplit'
        rw [hkl _ hkmem] at hl
        simp only [List.length_append, List.length_cons, List.length_nil] at hl ⊢
        omega
      unfold stepChar
      rw [if_neg (by omega)]
      have hemp : (keys.filter fun k => List.isPrefixOf (p ++ [c]) k).isEmpty = false := by
        have hfmem : keys.getD idx [] ∈ keys.filter
            fun k => List.isPrefixOf (p ++ [c]) k := by
          rw [List.mem_filter]
          refine ⟨hkmem, ?_⟩
          rw [ List.isPrefixOf_iff_prefix]
          exact ⟨c' :: rest', hsplit'⟩
        rcases hf : keys.filter fun k => List.isPrefixOf (p ++ [c]) k with _ | ⟨a, t⟩
        · rw [hf] at hfmem
          simp at hfmem
        · rfl
      rw [hemp]
      simp only [Bool.false_eq_true, if_false]
      exact ih (p ++ [c]) hsplit' (by simp)
        (fun d hd => hmem d (List.mem_cons_of_mem c hd))
        (fun d hd => hq d (List.mem_cons_of_mem c hd))

/-- Counterexample for C5: over the two-character alphabet `qx` with one
    file, the single generated key is `q`; typing exactly that key — a
    sequence of alphabet keystrokes spelling a generated key — cancels the
    machine instead of reaching `Selected`, because `q` is matched as the
    quit keystroke before the alphabet arm. -/
theorem c5_narrowing_counterexample :
    generate_keys 1 ['q', 'x'] = [['q']] ∧
    run_machine ['q', 'x'] [dfltFile] [KeyEvent.char 'q'] = MState.Cancelled := by
  decide

/-- Claim C5 (amended): starting from `Collecting ""`, typing the keystrokes
    of a generated key that does not contain the cancel character `q` reaches
    `Selected` with the file at that key's index; and in any `Collecting`
    state, an appended alphabet keystroke other than `q` whose new prefix no
    generated key starts with resets the machine to `Collecting ""`. -/
theorem c5_narrowing_amended (idChars : List Char) (files : List GitFile)
    (h2 : 2 ≤ idChars.length) (hnd : idChars.Nodup) (hne : files ≠ [])
    (idx : Nat) (hidx : idx < files.length)
    (hq : 'q' ∉ (generate_keys files.length idChars).getD idx []) :
    run_machine idChars files
        (((generate_keys files.length idChars).getD idx []).map KeyEvent.char)
      = MState.Selected (files.getD idx dfltFile) ∧
    (∀ p c, c ∈ idChars → c ≠ 'q' →
      (∀ k ∈ generate_keys files.length idChars, ¬ (p ++ [c]) <+: k) →
      step idChars files (generate_keys files.length idChars)
          ((generate_keys files.length idChars).headD []).length
          (MState.Collecting p) (KeyEvent.char c)
        = MState.Collecting []) := by
  have hn : 1 ≤ files.length := by
    cases hf : files with
    | nil => exact absurd hf hne
    | cons a t => simp
  have hkln : ((generate_keys files.length idChars).headD []).length
      = key_length idChars.length files.length :=
    generate_keys_headD_length files.length idChars hn
  have hklen : ∀ k ∈ generate_keys files.length idChars,
      k.length = ((generate_keys files.length idChars).headD []).length := by
    intro k hk
    rw [hkln]
    exact generate_keys_mem_length files.length idChars k hk
  have hksnd : (generate_keys files.length idChars).Nodup :=
    generate_keys_nodup files.length idChars h2 hnd
  have hkidx : idx < (generate_keys files.length idChars).length := by
    rw [generate_keys_length]
    exact hidx
  have hkey : (generate_keys files.length idChars).getD idx []
      = keyDigits idChars (key_length idChars.length files.length) idx :=
    generate_keys_getD files.length idChars hn idx hidx
  constructor
  · unfold run_machine
    apply type_key_foldl idChars files (generate_keys files.length idChars)
      ((generate_keys files.length idChars).headD []).length hklen hksnd idx hkidx
      ((generate_keys files.length idChars).getD idx []) []
    · rfl
    · intro hnil
      have hl := congrArg List.length hnil
      rw [hkey, keyDigits_length] at hl
      have h1 := (key_length_spec idChars.length files.length h2 hn).1
      simp at hl
      omega
    · intro c hc
      rw [hkey] at hc
      exact keyDigits_mem idChars (by omega) _ idx c hc
    · intro c hc hcq
      subst hcq
      exact hq hc
  · intro p c hcm hcq hnok
    have hcont : idChars.contains c = true := by simpa using hcm
    have hred : step idChars files (generate_keys files.length idChars)
        ((generate_keys files.length idChars).headD []).length
        (MState.Collecting p) (KeyEvent.char c)
        = stepChar files (generate_keys files.length idChars)
            ((generate_keys files.length idChars).headD []).length p c := by
      simp only [step, if_neg hcq, hcont]
      rfl
    rw [hred]
    unfold stepChar
    split
    · cases hpos : position (generate_keys files.length idChars) (p ++ [c]) with
      | some i2 =>
        exfalso
        rcases position_spec (generate_keys files.length idChars) (p ++ [c]) i2 hpos with
          ⟨hi2, hk2⟩
        exact hnok _ (getD_mem (generate_keys files.length idChars) i2 hi2 [])
          (hk2 ▸ List.prefix_refl (p ++ [c]))
      | none =>
        exact ite_self (MState.Collecting [])
    · have hfil : ((generate_keys files.length idChars).filter
          fun k => List.isPrefixOf (p ++ [c]) k) = [] := by
        rw [List.filter_eq_nil_iff]
        intro k hk
        rw [Bool.not_eq_true, ← Bool.not_eq_true, List.isPrefixOf_iff_prefix]
        exact hnok k hk
      rw [hfil]
      rfl

/-- Witness for C5 (amended): two files over the alphabet `df`; typing the
    second generated key `f` selects the second file. -/
theorem c5_narrowing_amended_witness :
    run_machine ['d', 'f'] [dfltFile, { dfltFile with mtime := 1 }]
        (((generate_keys 2 ['d', 'f']).getD 1 []).map KeyEvent.char)
      = MState.Selected ([dfltFile, { dfltFile with mtime := 1 }].getD 1 dfltFile) :=
  (c5_narrowing_amended ['d', 'f'] [dfltFile, { dfltFile with mtime := 1 }]
    (by decide) (by decide) (by decide) 1 (by decide) (by decide)).1
